import Mathlib

/- Shallow embedding of the zscilib vector module (src/vectors.c, compiled by
the standalone sample Makefile) together with, for the matrix-inverse claim,
a model of the inverse operation described in the design document (its C body
is not among the provided sources).

Modelling conventions:
* The scalar type zsl_real_t is modelled as the real numbers.
* A struct zsl_vec is a logical length `sz` plus the contents of the backing
  buffer it views; `data.length` is the buffer capacity.  The struct invariant
  of the design document is `sz ≤ data.length`, taken as a hypothesis where a
  proof needs it.
* Buffer reads and writes are Option-indexed: access outside the backing
  buffer yields `none` (the undefined behaviour of the C code); a defined
  execution yields `some (rc, result)` with `rc` the C return value.
* `size_t` arithmetic that can wrap is performed modulo `2 ^ 64` (the width
  of `size_t` on the reference 64-bit build).
* The bounds-checked build (`CONFIG_ZSL_BOUNDS_CHECKS` enabled) is modelled:
  the conditionally-compiled shape checks are included. -/

/-- Modulus of `size_t` arithmetic on the reference build (64-bit). -/
def SIZE_MOD : ℕ := 2 ^ 64

/-- The errno constant `EINVAL`; rejected calls return `-EINVAL`. -/
def EINVAL : Int := 22

/-- A `struct zsl_vec`: logical size `sz` and the backing buffer contents. -/
structure zsl_vec where
  sz : ℕ
  data : List ℝ

/-- Read `data[i]`; `none` when the access is outside the backing buffer. -/
def bufGet (l : List ℝ) (i : ℕ) : Option ℝ := l[i]?

/-- Write `data[i]`; `none` when the access is outside the backing buffer. -/
def bufSet (l : List ℝ) (i : ℕ) (x : ℝ) : Option (List ℝ) :=
  if i < l.length then some (l.set i x) else none

/-- The buffer value at index `i` (defaulting to 0); used to state theorems. -/
def atD (l : List ℝ) (i : ℕ) : ℝ := (l[i]?).getD 0

/-- `memset(v->data, 0, n * sizeof(zsl_real_t))`. -/
def memsetZero (l : List ℝ) (n : ℕ) : Option (List ℝ) :=
  if n ≤ l.length then some (List.replicate n (0 : ℝ) ++ l.drop n) else none

/-- `memcpy(dst, &src[srcOff], n * sizeof(zsl_real_t))`. -/
def memcpyFrom (dst src : List ℝ) (srcOff n : ℕ) : Option (List ℝ) :=
  if srcOff + n ≤ src.length ∧ n ≤ dst.length then
    some ((src.drop srcOff).take n ++ dst.drop n)
  else none

/-- `int zsl_vec_init(struct zsl_vec *v)` — vectors.c: zero the `sz` leading
buffer slots. -/
def zsl_vec_init (v : zsl_vec) : Option (Int × zsl_vec) := do
  let d ← memsetZero v.data v.sz
  some (0, ⟨v.sz, d⟩)

/-- `int zsl_vec_get_subset(struct zsl_vec *v, size_t offset, size_t len,
struct zsl_vec *vsub)` — vectors.c, bounds-checked build.  The truncation
test `offset + len >= v->sz` is `size_t` arithmetic, hence the modulus. -/
def zsl_vec_get_subset (v : zsl_vec) (offset len : ℕ) (vsub : zsl_vec) :
    Option (Int × zsl_vec) :=
  if offset ≥ v.sz then some (-EINVAL, vsub)
  else
    let len1 := if (offset + len) % SIZE_MOD ≥ v.sz then v.sz - offset else len
    if vsub.sz < len1 then some (-EINVAL, vsub)
    else
      let sz1 := if vsub.sz > len1 then len1 else vsub.sz
      do
        let d ← memcpyFrom vsub.data v.data offset len1
        some (0, ⟨sz1, d⟩)

/-- Loop body of `zsl_vec_add`: `x->data[i] = v->data[i] + w->data[i]` for
`i < n`, iterated in index order. -/
def addLoop (vd wd xd : List ℝ) : ℕ → Option (List ℝ)
  | 0 => some xd
  | n + 1 => do
    let d ← addLoop vd wd xd n
    let a ← bufGet vd n
    let b ← bufGet wd n
    bufSet d n (a + b)

/-- `int zsl_vec_add(struct zsl_vec *v, struct zsl_vec *w, struct zsl_vec *x)`
— vectors.c, bounds-checked build. -/
def zsl_vec_add (v w x : zsl_vec) : Option (Int × zsl_vec) :=
  if v.sz ≠ w.sz ∨ v.sz ≠ x.sz then some (-EINVAL, x)
  else do
    let d ← addLoop v.data w.data x.data v.sz
    some (0, ⟨x.sz, d⟩)

/-- Loop body of `zsl_vec_sub`: `x->data[i] = v->data[i] - w->data[i]`. -/
def subLoop (vd wd xd : List ℝ) : ℕ → Option (List ℝ)
  | 0 => some xd
  | n + 1 => do
    let d ← subLoop vd wd xd n
    let a ← bufGet vd n
    let b ← bufGet wd n
    bufSet d n (a - b)

/-- `int zsl_vec_sub(struct zsl_vec *v, struct zsl_vec *w, struct zsl_vec *x)`
— vectors.c, bounds-checked build. -/
def zsl_vec_sub (v w x : zsl_vec) : Option (Int × zsl_vec) :=
  if v.sz ≠ w.sz ∨ v.sz ≠ x.sz then some (-EINVAL, x)
  else do
    let d ← subLoop v.data w.data x.data v.sz
    some (0, ⟨x.sz, d⟩)

/-- Inner loop of `zsl_vec_sum`: `w->data[j] += vd[j]` for `j < n`. -/
def accLoop (vd d0 : List ℝ) : ℕ → Option (List ℝ)
  | 0 => some d0
  | j + 1 => do
    let d ← accLoop vd d0 j
    let cur ← bufGet d j
    let a ← bufGet vd j
    bufSet d j (cur + a)

/-- Narrowing a `size_t` value to a 32-bit `int` on the reference build
(gcc x86-64: two's complement wrap): the balanced remainder modulo `2 ^ 32`,
which lies in `[-2^31, 2^31)`. -/
def intOfSizeT (s : ℕ) : ℤ := Int.bmod (s : ℤ) (2 ^ 32)

/-- Conversion of an `int` value back to `size_t` (reduction modulo
`2 ^ 64`, with sign extension for negatives). -/
def sizeTOfInt (z : ℤ) : ℕ := (z % (2 ^ 64 : ℤ)).toNat

/-- The `size_t → int → size_t` round trip performed on `sz_last` inside
`zsl_vec_sum`: `int sz_last = v[0]->sz;` followed by its uses in `size_t`
contexts (`sz_last != v[i]->sz` and `w->sz = sz_last`).  It is the identity
exactly on the values representable without wrap (in particular everything
below `2 ^ 31`). -/
def szLastRT (s : ℕ) : ℕ := sizeTOfInt (intOfSizeT s)

/-- `int zsl_vec_sum(struct zsl_vec **v, size_t n, struct zsl_vec *w)` —
vectors.c, bounds-checked build.  The array of `n` vector pointers is a
list.  `sz_last` is declared `int`, so the first input's `size_t` length is
narrowed to `int` and converted back to `size_t` wherever `sz_last` is used
(`szLastRT`).  Note the output size is overwritten with `sz_last` and the
accumulation `+=` starts from the output's prior contents. -/
def zsl_vec_sum (vs : List zsl_vec) (w : zsl_vec) : Option (Int × zsl_vec) :=
  match vs with
  | [] => some (-EINVAL, w)
  | v0 :: _ =>
    let sz_last := szLastRT v0.sz
    if vs.any fun vi => sz_last ≠ vi.sz then some (-EINVAL, w)
    else do
      let d ← vs.foldlM (fun d vi => accLoop vi.data d sz_last) w.data
      some (0, ⟨sz_last, d⟩)

/-- Loop of `zsl_vec_dot` (also the accumulation loop of `zsl_vec_norm`):
`res += vd[i] * wd[i]` for `i < n`. -/
def dotLoop (vd wd : List ℝ) : ℕ → Option ℝ
  | 0 => some 0
  | n + 1 => do
    let r ← dotLoop vd wd n
    let a ← bufGet vd n
    let b ← bufGet wd n
    some (r + a * b)

/-- `int zsl_vec_dot(struct zsl_vec *v, struct zsl_vec *w, zsl_real_t *d)` —
vectors.c, bounds-checked build; on shape mismatch `*d` is left untouched. -/
def zsl_vec_dot (v w : zsl_vec) (d : ℝ) : Option (Int × ℝ) :=
  if v.sz ≠ w.sz then some (-EINVAL, d)
  else do
    let r ← dotLoop v.data w.data v.sz
    some (0, r)

/-- `zsl_real_t zsl_vec_sum_of_sqrs(struct zsl_vec *v)` — vectors.c: a dot
product of `v` with itself, starting from `dot = 0.0`; the return code of
`zsl_vec_dot` is ignored. -/
def zsl_vec_sum_of_sqrs (v : zsl_vec) : Option ℝ := do
  let (_, r) ← zsl_vec_dot v v 0
  some r

/-- `zsl_real_t zsl_vec_magn(struct zsl_vec *v)` — vectors.c. -/
noncomputable def zsl_vec_magn (v : zsl_vec) : Option ℝ := do
  let s ← zsl_vec_sum_of_sqrs v
  some (Real.sqrt s)

/-- Loop of `zsl_vec_scalar_mult`: `v->data[i] *= s`. -/
def multLoop (d0 : List ℝ) (s : ℝ) : ℕ → Option (List ℝ)
  | 0 => some d0
  | n + 1 => do
    let d ← multLoop d0 s n
    let a ← bufGet d n
    bufSet d n (a * s)

/-- `int zsl_vec_scalar_mult(struct zsl_vec *v, zsl_real_t s)` — vectors.c. -/
def zsl_vec_scalar_mult (v : zsl_vec) (s : ℝ) : Option (Int × zsl_vec) := do
  let d ← multLoop v.data s v.sz
  some (0, ⟨v.sz, d⟩)

/-- Loop of `zsl_vec_scalar_div`: `v->data[i] /= s`. -/
noncomputable def divLoop (d0 : List ℝ) (s : ℝ) : ℕ → Option (List ℝ)
  | 0 => some d0
  | n + 1 => do
    let d ← divLoop d0 s n
    let a ← bufGet d n
    bufSet d n (a / s)

/-- `int zsl_vec_scalar_div(struct zsl_vec *v, zsl_real_t s)` — vectors.c:
guarded against a scalar of exactly zero. -/
noncomputable def zsl_vec_scalar_div (v : zsl_vec) (s : ℝ) :
    Option (Int × zsl_vec) :=
  if s = 0 then some (-EINVAL, v)
  else do
    let d ← divLoop v.data s v.sz
    some (0, ⟨v.sz, d⟩)

/-- `zsl_real_t zsl_vec_norm(struct zsl_vec *v)` — vectors.c: accumulates
`sum += v->data[i] * v->data[i]` (the same loop shape as `dotLoop` of the
vector with itself) and takes the square root. -/
noncomputable def zsl_vec_norm (v : zsl_vec) : Option ℝ := do
  let s ← dotLoop v.data v.data v.sz
  some (Real.sqrt s)

/-- `int zsl_vec_to_unit(struct zsl_vec *v)` — vectors.c: scale by
`1.0 / mag` when the norm `mag` is nonzero, otherwise clear the vector and
set `v->data[0] = 1.0`.  Returns 0 in both branches. -/
noncomputable def zsl_vec_to_unit (v : zsl_vec) : Option (Int × zsl_vec) := do
  let mag ← zsl_vec_norm v
  if mag ≠ 0 then do
    let r ← zsl_vec_scalar_mult v (1 / mag)
    some (0, r.2)
  else do
    let r ← zsl_vec_init v
    let d ← bufSet r.2.data 0 1
    some (0, ⟨r.2.sz, d⟩)

/-- `int zsl_vec_cross(struct zsl_vec *v, struct zsl_vec *w,
struct zsl_vec *c)` — vectors.c, bounds-checked build. -/
def zsl_vec_cross (v w c : zsl_vec) : Option (Int × zsl_vec) :=
  if v.sz ≠ 3 ∨ w.sz ≠ 3 ∨ c.sz ≠ 3 then some (-EINVAL, c)
  else do
    let v0 ← bufGet v.data 0
    let v1 ← bufGet v.data 1
    let v2 ← bufGet v.data 2
    let w0 ← bufGet w.data 0
    let w1 ← bufGet w.data 1
    let w2 ← bufGet w.data 2
    let d0 ← bufSet c.data 0 (v1 * w2 - v2 * w1)
    let d1 ← bufSet d0 1 (v2 * w0 - v0 * w2)
    let d2 ← bufSet d1 2 (v0 * w1 - v1 * w0)
    some (0, ⟨c.sz, d2⟩)

/-- `zsl_real_t zsl_vec_dist(struct zsl_vec *v, struct zsl_vec *w)` —
vectors.c: builds a zeroed difference vector over a stack VLA of `v->sz`
slots, subtracts, and returns `NAN` when the subtraction is rejected.  The
scalar result is modelled as `Option ℝ` with `none` the NaN sentinel, so the
full return type is `Option (Option ℝ)` (outer `none` = undefined access). -/
noncomputable def zsl_vec_dist (v w : zsl_vec) : Option (Option ℝ) := do
  let x : zsl_vec := ⟨v.sz, List.replicate v.sz 0⟩
  let r ← zsl_vec_sub v w x
  if r.1 ≠ 0 then some none
  else do
    let m ← zsl_vec_magn r.2
    some (some m)

/-- `int zsl_vec_mean(struct zsl_vec **v, size_t n, struct zsl_vec *m)` —
vectors.c, bounds-checked build.  The bounds check dereferences `v[0]`, and
the final scaling is `zsl_vec_scalar_mult(m, 1/n)` where `1/n` is `size_t`
division: it is computed in the integers and only then converted to the real
scalar type. -/
def zsl_vec_mean (vs : List zsl_vec) (m : zsl_vec) : Option (Int × zsl_vec) := do
  let v0 ← vs.head?
  if m.sz ≠ v0.sz then some (-EINVAL, m)
  else do
    let r ← zsl_vec_sum vs m
    if r.1 ≠ 0 then some (r.1, r.2)
    else do
      let r2 ← zsl_vec_scalar_mult r.2 ((1 / vs.length : ℕ) : ℝ)
      some (0, r2.2)

/-- The swap loop of `zsl_vec_rev`: `while (start < end)` swap
`data[start]`/`data[end]`, then advance both cursors. -/
def revLoop (d : List ℝ) (start e : ℕ) : Option (List ℝ) :=
  if h : start < e then do
    let a ← bufGet d start
    let b ← bufGet d e
    let d1 ← bufSet d start b
    let d2 ← bufSet d1 e a
    revLoop d2 (start + 1) (e - 1)
  else some d
termination_by e - start
decreasing_by omega

/-- `int zsl_vec_rev(struct zsl_vec *v)` — vectors.c: `size_t end = v->sz - 1`
wraps to `SIZE_MOD - 1` when `v->sz = 0`. -/
def zsl_vec_rev (v : zsl_vec) : Option (Int × zsl_vec) := do
  let e := (v.sz + (SIZE_MOD - 1)) % SIZE_MOD
  let d ← revLoop v.data 0 e
  some (0, ⟨v.sz, d⟩)

/-- Modelled from the spec: the body of `zsl_mtx_inv` is not among the
provided sources (src/unnamed/part_000 only declares the prototype), so the
operation is modelled from the design document: "inverse = adjugate /
determinant; rejects with a singular-matrix error when the determinant is
exactly zero", the output being left untouched on rejection and the error
reported as `-EINVAL`.  The square shape required throughout the subsystem is
carried by the type. -/
noncomputable def zsl_mtx_inv {n : ℕ} (m mi : Matrix (Fin n) (Fin n) ℝ) :
    Int × Matrix (Fin n) (Fin n) ℝ :=
  if m.det = 0 then (-EINVAL, mi) else (0, m.det⁻¹ • m.adjugate)

/- Closed-form specifications of the translated loops. -/

lemma bufGet_eq {l : List ℝ} {i : ℕ} (h : i < l.length) :
    bufGet l i = some (atD l i) := by
  simp [bufGet, atD, List.getElem?_eq_getElem h]

lemma bufSet_eq {l : List ℝ} {i : ℕ} (h : i < l.length) (x : ℝ) :
    bufSet l i x = some (l.set i x) := by
  simp [bufSet, h]

lemma atD_of_getElem? {l : List ℝ} {i : ℕ} {x : ℝ} (h : l[i]? = some x) :
    atD l i = x := by simp [atD, h]

lemma addLoop_spec (vd wd xd : List ℝ) (n : ℕ)
    (hv : n ≤ vd.length) (hw : n ≤ wd.length) (hx : n ≤ xd.length) :
    ∃ d, addLoop vd wd xd n = some d ∧ d.length = xd.length ∧
      (∀ i, i < n → d[i]? = some (atD vd i + atD wd i)) ∧
      (∀ i, n ≤ i → d[i]? = xd[i]?) := by
  induction n with
  | zero =>
    exact ⟨xd, rfl, rfl, fun i hi => absurd hi (Nat.not_lt_zero i), fun i _ => rfl⟩
  | succ n ih =>
    obtain ⟨d, hd, hlen, hin, hout⟩ :=
      ih (Nat.le_of_succ_le hv) (Nat.le_of_succ_le hw) (Nat.le_of_succ_le hx)
    have hvn : n < vd.length := by omega
    have hwn : n < wd.length := by omega
    have hdn : n < d.length := by omega
    refine ⟨d.set n (atD vd n + atD wd n), ?_, by simp [hlen], ?_, ?_⟩
    · simp [addLoop, hd, bufGet_eq hvn, bufGet_eq hwn, bufSet_eq hdn]
    · intro i hi
      rcases Nat.lt_succ_iff_lt_or_eq.mp hi with hi2 | rfl
      · rw [List.getElem?_set_ne (by omega)]
        exact hin i hi2
      · simp [List.getElem?_set_self hdn]
    · intro i hi
      rw [List.getElem?_set_ne (by omega)]
      exact hout i (by omega)

lemma subLoop_spec (vd wd xd : List ℝ) (n : ℕ)
    (hv : n ≤ vd.length) (hw : n ≤ wd.length) (hx : n ≤ xd.length) :
    ∃ d, subLoop vd wd xd n = some d ∧ d.length = xd.length ∧
      (∀ i, i < n → d[i]? = some (atD vd i - atD wd i)) ∧
      (∀ i, n ≤ i → d[i]? = xd[i]?) := by
  induction n with
  | zero =>
    exact ⟨xd, rfl, rfl, fun i hi => absurd hi (Nat.not_lt_zero i), fun i _ => rfl⟩
  | succ n ih =>
    obtain ⟨d, hd, hlen, hin, hout⟩ :=
      ih (Nat.le_of_succ_le hv) (Nat.le_of_succ_le hw) (Nat.le_of_succ_le hx)
    have hvn : n < vd.length := by omega
    have hwn : n < wd.length := by omega
    have hdn : n < d.length := by omega
    refine ⟨d.set n (atD vd n - atD wd n), ?_, by simp [hlen], ?_, ?_⟩
    · simp [subLoop, hd, bufGet_eq hvn, bufGet_eq hwn, bufSet_eq hdn]
    · intro i hi
      rcases Nat.lt_succ_iff_lt_or_eq.mp hi with hi2 | rfl
      · rw [List.getElem?_set_ne (by omega)]
        exact hin i hi2
      · simp [List.getElem?_set_self hdn]
    · intro i hi
      rw [List.getElem?_set_ne (by omega)]
      exact hout i (by omega)

lemma multLoop_spec (d0 : List ℝ) (s : ℝ) (n : ℕ) (hn : n ≤ d0.length) :
    ∃ d, multLoop d0 s n = some d ∧ d.length = d0.length ∧
      (∀ i, i < n → d[i]? = some (atD d0 i * s)) ∧
      (∀ i, n ≤ i → d[i]? = d0[i]?) := by
  induction n with
  | zero =>
    exact ⟨d0, rfl, rfl, fun i hi => absurd hi (Nat.not_lt_zero i), fun i _ => rfl⟩
  | succ n ih =>
    obtain ⟨d, hd, hlen, hin, hout⟩ := ih (Nat.le_of_succ_le hn)
    have hdn : n < d.length := by omega
    have hcur : d[n]? = some (atD d0 n) := by
      rw [hout n le_rfl]
      exact (bufGet_eq (l := d0) (by omega) : bufGet d0 n = _)
    refine ⟨d.set n (atD d0 n * s), ?_, by simp [hlen], ?_, ?_⟩
    · have : bufGet d n = some (atD d0 n) := hcur
      simp [multLoop, hd, this, bufSet_eq hdn]
    · intro i hi
      rcases Nat.lt_succ_iff_lt_or_eq.mp hi with hi2 | rfl
      · rw [List.getElem?_set_ne (by omega)]
        exact hin i hi2
      · simp [List.getElem?_set_self hdn]
    · intro i hi
      rw [List.getElem?_set_ne (by omega)]
      exact hout i (by omega)

lemma divLoop_spec (d0 : List ℝ) (s : ℝ) (n : ℕ) (hn : n ≤ d0.length) :
    ∃ d, divLoop d0 s n = some d ∧ d.length = d0.length ∧
      (∀ i, i < n → d[i]? = some (atD d0 i / s)) ∧
      (∀ i, n ≤ i → d[i]? = d0[i]?) := by
  induction n with
  | zero =>
    exact ⟨d0, rfl, rfl, fun i hi => absurd hi (Nat.not_lt_zero i), fun i _ => rfl⟩
  | succ n ih =>
    obtain ⟨d, hd, hlen, hin, hout⟩ := ih (Nat.le_of_succ_le hn)
    have hdn : n < d.length := by omega
    have hcur : d[n]? = some (atD d0 n) := by
      rw [hout n le_rfl]
      exact (bufGet_eq (l := d0) (by omega) : bufGet d0 n = _)
    refine ⟨d.set n (atD d0 n / s), ?_, by simp [hlen], ?_, ?_⟩
    · have : bufGet d n = some (atD d0 n) := hcur
      simp [divLoop, hd, this, bufSet_eq hdn]
    · intro i hi
      rcases Nat.lt_succ_iff_lt_or_eq.mp hi with hi2 | rfl
      · rw [List.getElem?_set_ne (by omega)]
        exact hin i hi2
      · simp [List.getElem?_set_self hdn]
    · intro i hi
      rw [List.getElem?_set_ne (by omega)]
      exact hout i (by omega)

lemma accLoop_spec (vd d0 : List ℝ) (n : ℕ)
    (hv : n ≤ vd.length) (hd0 : n ≤ d0.length) :
    ∃ d, accLoop vd d0 n = some d ∧ d.length = d0.length ∧
      (∀ i, i < n → d[i]? = some (atD d0 i + atD vd i)) ∧
      (∀ i, n ≤ i → d[i]? = d0[i]?) := by
  induction n with
  | zero =>
    exact ⟨d0, rfl, rfl, fun i hi => absurd hi (Nat.not_lt_zero i), fun i _ => rfl⟩
  | succ n ih =>
    obtain ⟨d, hd, hlen, hin, hout⟩ :=
      ih (Nat.le_of_succ_le hv) (Nat.le_of_succ_le hd0)
    have hvn : n < vd.length := by omega
    have hdn : n < d.length := by omega
    have hcur : d[n]? = some (atD d0 n) := by
      rw [hout n le_rfl]
      exact (bufGet_eq (l := d0) (by omega) : bufGet d0 n = _)
    refine ⟨d.set n (atD d0 n + atD vd n), ?_, by simp [hlen], ?_, ?_⟩
    · have : bufGet d n = some (atD d0 n) := hcur
      simp [accLoop, hd, this, bufGet_eq hvn, bufSet_eq hdn]
    · intro i hi
      rcases Nat.lt_succ_iff_lt_or_eq.mp hi with hi2 | rfl
      · rw [List.getElem?_set_ne (by omega)]
        exact hin i hi2
      · simp [List.getElem?_set_self hdn]
    · intro i hi
      rw [List.getElem?_set_ne (by omega)]
      exact hout i (by omega)

lemma dotLoop_eq (vd wd : List ℝ) (n : ℕ)
    (hv : n ≤ vd.length) (hw : n ≤ wd.length) :
    dotLoop vd wd n = some (∑ i ∈ Finset.range n, atD vd i * atD wd i) := by
  induction n with
  | zero => simp [dotLoop]
  | succ n ih =>
    have hvn : n < vd.length := by omega
    have hwn : n < wd.length := by omega
    simp [dotLoop, ih (Nat.le_of_succ_le hv) (Nat.le_of_succ_le hw),
      bufGet_eq hvn, bufGet_eq hwn, Finset.sum_range_succ]

lemma memsetZero_spec (l : List ℝ) (n : ℕ) (h : n ≤ l.length) :
    ∃ d, memsetZero l n = some d ∧ d.length = l.length ∧
      (∀ i, i < n → d[i]? = some 0) ∧ (∀ i, n ≤ i → d[i]? = l[i]?) := by
  refine ⟨List.replicate n (0 : ℝ) ++ l.drop n, by simp [memsetZero, h], ?_, ?_, ?_⟩
  · simp
    omega
  · intro i hi
    rw [List.getElem?_append_left (by simp [hi])]
    simp [hi]
  · intro i hi
    rw [List.getElem?_append_right (by simp [hi]), List.getElem?_drop]
    simp
    congr 1
    omega

lemma memcpyFrom_spec (dst src : List ℝ) (srcOff n : ℕ)
    (h1 : srcOff + n ≤ src.length) (h2 : n ≤ dst.length) :
    ∃ d, memcpyFrom dst src srcOff n = some d ∧ d.length = dst.length ∧
      (∀ j, j < n → d[j]? = src[srcOff + j]?) ∧
      (∀ j, n ≤ j → d[j]? = dst[j]?) := by
  refine ⟨(src.drop srcOff).take n ++ dst.drop n,
    by simp [memcpyFrom, h1, h2], ?_, ?_, ?_⟩
  · simp
    omega
  · intro j hj
    rw [List.getElem?_append_left (by simp; omega),
      List.getElem?_take_of_lt hj, List.getElem?_drop]
  · intro j hj
    rw [List.getElem?_append_right (by simp; omega), List.getElem?_drop]
    have hmin : ((src.drop srcOff).take n).length = n := by simp; omega
    rw [hmin]
    congr 1
    omega

lemma sumFold_spec (vs : List zsl_vec) (d0 : List ℝ) (n : ℕ)
    (hcaps : ∀ vi ∈ vs, n ≤ vi.data.length) (hd : n ≤ d0.length) :
    ∃ d, List.foldlM (fun d vi => accLoop vi.data d n) d0 vs = some d ∧
      d.length = d0.length ∧
      (∀ j, j < n →
        d[j]? = some (atD d0 j + ((vs.map fun vi => atD vi.data j).sum))) ∧
      (∀ j, n ≤ j → d[j]? = d0[j]?) := by
  induction vs generalizing d0 with
  | nil =>
    refine ⟨d0, rfl, rfl, ?_, fun j _ => rfl⟩
    intro j hj
    have : j < d0.length := by omega
    simp [List.getElem?_eq_getElem this, atD]
  | cons v0 rest ih =>
    obtain ⟨d1, hd1, hlen1, hin1, hout1⟩ :=
      accLoop_spec v0.data d0 n (hcaps v0 (by simp)) hd
    obtain ⟨d, hdf, hlen, hin, hout⟩ :=
      ih d1 (fun vi hvi => hcaps vi (by simp [hvi])) (by omega)
    refine ⟨d, ?_, by omega, ?_, ?_⟩
    · simp [List.foldlM, hd1, hdf]
    · intro j hj
      rw [hin j hj, atD_of_getElem? (hin1 j hj)]
      simp [add_assoc]
    · intro j hj
      rw [hout j hj, hout1 j hj]

theorem revLoop_spec (d : List ℝ) (start e : ℕ) (he : e < d.length) :
    ∃ d2, revLoop d start e = some d2 ∧ d2.length = d.length ∧
      ∀ k, d2[k]? = if start ≤ k ∧ k ≤ e then d[start + e - k]? else d[k]? := by
  rw [revLoop]
  by_cases h : start < e
  · rw [dif_pos h]
    have hs : start < d.length := by omega
    have hb1 : bufGet d start = some (atD d start) := bufGet_eq hs
    have hb2 : bufGet d e = some (atD d e) := bufGet_eq he
    have hset1 : bufSet d start (atD d e) = some (d.set start (atD d e)) :=
      bufSet_eq hs _
    have hset2 : bufSet (d.set start (atD d e)) e (atD d start) =
        some ((d.set start (atD d e)).set e (atD d start)) :=
      bufSet_eq (by simp; omega) _
    obtain ⟨d3, hd3, hlen3, hkey⟩ :=
      revLoop_spec ((d.set start (atD d e)).set e (atD d start))
        (start + 1) (e - 1) (by simp; omega)
    refine ⟨d3, ?_, by simp_all, ?_⟩
    · simp [hb1, hb2, hset1, hset2, hd3]
    · intro k
      have hk := hkey k
      by_cases hg : start ≤ k ∧ k ≤ e
      · rw [if_pos hg]
        by_cases hc : start + 1 ≤ k ∧ k ≤ e - 1
        · rw [hk, if_pos hc]
          have ht : start + 1 + (e - 1) - k = start + e - k := by omega
          rw [ht, List.getElem?_set_ne (show e ≠ start + e - k by omega),
            List.getElem?_set_ne (show start ≠ start + e - k by omega)]
        · have hke : k = start ∨ k = e := by omega
          rcases hke with rfl | rfl
          · rw [hk, if_neg (by omega),
              List.getElem?_set_ne (show e ≠ k by omega),
              List.getElem?_set_self hs]
            have ht : k + e - k = e := by omega
            rw [ht]
            simp [atD, List.getElem?_eq_getElem he]
          · rw [hk, if_neg (by omega),
              List.getElem?_set_self (by simp; omega)]
            have ht : start + k - k = start := by omega
            rw [ht]
            simp [atD, List.getElem?_eq_getElem hs]
      · rw [if_neg hg, hk, if_neg (by omega),
          List.getElem?_set_ne (show e ≠ k by omega),
          List.getElem?_set_ne (show start ≠ k by omega)]
  · rw [dif_neg h]
    refine ⟨d, rfl, rfl, ?_⟩
    intro k
    by_cases hg : start ≤ k ∧ k ≤ e
    · rw [if_pos hg]
      have : start + e - k = k := by omega
      rw [this]
    · rw [if_neg hg]
termination_by e - start
decreasing_by omega

lemma zsl_vec_add_ok (v w x : zsl_vec) (h1 : v.sz = w.sz) (h2 : v.sz = x.sz)
    (hv : v.sz ≤ v.data.length) (hw : v.sz ≤ w.data.length)
    (hx : v.sz ≤ x.data.length) :
    ∃ d, zsl_vec_add v w x = some (0, ⟨x.sz, d⟩) ∧ d.length = x.data.length ∧
      (∀ i, i < v.sz → d[i]? = some (atD v.data i + atD w.data i)) ∧
      (∀ i, v.sz ≤ i → d[i]? = x.data[i]?) := by
  obtain ⟨d, hd, hlen, hin, hout⟩ :=
    addLoop_spec v.data w.data x.data v.sz hv (h1 ▸ hw) (h2 ▸ hx)
  refine ⟨d, ?_, hlen, hin, hout⟩
  rw [zsl_vec_add, if_neg (by omega)]
  rw [hd]
  rfl

lemma zsl_vec_sub_ok (v w x : zsl_vec) (h1 : v.sz = w.sz) (h2 : v.sz = x.sz)
    (hv : v.sz ≤ v.data.length) (hw : v.sz ≤ w.data.length)
    (hx : v.sz ≤ x.data.length) :
    ∃ d, zsl_vec_sub v w x = some (0, ⟨x.sz, d⟩) ∧ d.length = x.data.length ∧
      (∀ i, i < v.sz → d[i]? = some (atD v.data i - atD w.data i)) ∧
      (∀ i, v.sz ≤ i → d[i]? = x.data[i]?) := by
  obtain ⟨d, hd, hlen, hin, hout⟩ :=
    subLoop_spec v.data w.data x.data v.sz hv (h1 ▸ hw) (h2 ▸ hx)
  refine ⟨d, ?_, hlen, hin, hout⟩
  rw [zsl_vec_sub, if_neg (by omega)]
  rw [hd]
  rfl

lemma addLoop_comm (vd wd xd : List ℝ) (n : ℕ) :
    addLoop vd wd xd n = addLoop wd vd xd n := by
  induction n with
  | zero => rfl
  | succ n ih =>
    simp only [addLoop, ih]
    cases addLoop wd vd xd n <;> cases hv : bufGet vd n <;>
      cases hw : bufGet wd n <;> simp [hv, hw, add_comm]

/-- Claim C7: for vectors of one common length with equally sized outputs,
`zsl_vec_add` is commutative, and `zsl_vec_sub` applied to the sum and `w`
reproduces `v` element-wise exactly over the real-number embedding. -/
theorem C7_add_comm_sub_roundtrip (v w x y : zsl_vec)
    (hvw : v.sz = w.sz) (hvx : v.sz = x.sz) (hvy : v.sz = y.sz)
    (hv : v.sz ≤ v.data.length) (hw : v.sz ≤ w.data.length)
    (hx : v.sz ≤ x.data.length) (hy : v.sz ≤ y.data.length) :
    zsl_vec_add v w x = zsl_vec_add w v x ∧
    ∃ x1 y1, zsl_vec_add v w x = some (0, x1) ∧
      zsl_vec_sub x1 w y = some (0, y1) ∧
      ∀ j, j < v.sz → y1.data[j]? = v.data[j]? := by
  constructor
  · simp only [zsl_vec_add]
    rw [hvw, addLoop_comm]
  · obtain ⟨dx, hdx, hlenx, hinx, houtx⟩ := zsl_vec_add_ok v w x hvw hvx hv hw hx
    obtain ⟨dy, hdy, hleny, hiny, houty⟩ :=
      zsl_vec_sub_ok ⟨x.sz, dx⟩ w y (by simp; omega) (by simp; omega)
        (by simp; omega) (by simp; omega) (by simp; omega)
    refine ⟨⟨x.sz, dx⟩, ⟨y.sz, dy⟩, hdx, hdy, ?_⟩
    intro j hj
    have hj2 : j < (⟨x.sz, dx⟩ : zsl_vec).sz := by simp; omega
    rw [hiny j hj2]
    have ha : atD (⟨x.sz, dx⟩ : zsl_vec).data j = atD v.data j + atD w.data j :=
      atD_of_getElem? (hinx j hj)
    rw [ha]
    have hb : atD v.data j + atD w.data j - atD w.data j = atD v.data j := by ring
    rw [hb]
    have hjv : j < v.data.length := by omega
    rw [List.getElem?_eq_getElem hjv]
    simp [atD, List.getElem?_eq_getElem hjv]

/-- Concrete instantiation of the C7 theorem at `v = [1, 2]`, `w = [3, 4]`. -/
theorem C7_witness :
    zsl_vec_add ⟨2, [1, 2]⟩ ⟨2, [3, 4]⟩ ⟨2, [0, 0]⟩ =
      zsl_vec_add ⟨2, [3, 4]⟩ ⟨2, [1, 2]⟩ ⟨2, [0, 0]⟩ ∧
    ∃ x1 y1, zsl_vec_add ⟨2, [1, 2]⟩ ⟨2, [3, 4]⟩ ⟨2, [0, 0]⟩ = some (0, x1) ∧
      zsl_vec_sub x1 ⟨2, [3, 4]⟩ ⟨2, [0, 0]⟩ = some (0, y1) ∧
      ∀ j, j < 2 → y1.data[j]? = ([1, 2] : List ℝ)[j]? :=
  C7_add_comm_sub_roundtrip ⟨2, [1, 2]⟩ ⟨2, [3, 4]⟩ ⟨2, [0, 0]⟩ ⟨2, [0, 0]⟩
    rfl rfl rfl (by simp) (by simp) (by simp) (by simp)

/-- Claim C8: `zsl_vec_scalar_div` returns `-EINVAL` exactly when the scalar
is zero, leaving the vector unchanged in that case; for a nonzero scalar it
divides every element in place and returns 0. -/
theorem C8_scalar_div (v : zsl_vec) (s : ℝ) (hcap : v.sz ≤ v.data.length) :
    (s = 0 → zsl_vec_scalar_div v s = some (-EINVAL, v)) ∧
    (s ≠ 0 → ∃ d, zsl_vec_scalar_div v s = some (0, ⟨v.sz, d⟩) ∧
      d.length = v.data.length ∧
      (∀ j, j < v.sz → d[j]? = some (atD v.data j / s)) ∧
      (∀ j, v.sz ≤ j → d[j]? = v.data[j]?)) ∧
    (∀ rc v1, zsl_vec_scalar_div v s = some (rc, v1) → (rc = -EINVAL ↔ s = 0)) := by
  refine ⟨?_, ?_, ?_⟩
  · intro h0
    rw [zsl_vec_scalar_div, if_pos h0]
  · intro hns
    obtain ⟨d, hd, hlen, hin, hout⟩ := divLoop_spec v.data s v.sz hcap
    refine ⟨d, ?_, hlen, hin, hout⟩
    rw [zsl_vec_scalar_div, if_neg hns, hd]
    rfl
  · intro rc v1 hres
    by_cases h0 : s = 0
    · rw [zsl_vec_scalar_div, if_pos h0] at hres
      simp at hres
      exact ⟨fun _ => h0, fun _ => hres.1.symm⟩
    · rw [zsl_vec_scalar_div, if_neg h0] at hres
      obtain ⟨d, hd, _, _, _⟩ := divLoop_spec v.data s v.sz hcap
      rw [hd] at hres
      simp at hres
      refine ⟨fun hrc => ?_, fun hs0 => absurd hs0 h0⟩
      rw [← hres.1] at hrc
      norm_num [EINVAL] at hrc

/-- Concrete instantiation of the C8 theorem at `v = [6]`, `s = 2`. -/
theorem C8_witness :
    ∃ d, zsl_vec_scalar_div ⟨1, [6]⟩ 2 = some (0, ⟨1, d⟩) ∧
      d.length = 1 ∧ (∀ j, j < 1 → d[j]? = some (atD [6] j / 2)) ∧
      (∀ j, 1 ≤ j → d[j]? = ([6] : List ℝ)[j]?) :=
  (C8_scalar_div ⟨1, [6]⟩ 2 (by simp)).2.1 (by norm_num)

lemma getElem?_set3_0 (l : List ℝ) (a b c : ℝ) (h : 3 ≤ l.length) :
    (((l.set 0 a).set 1 b).set 2 c)[0]? = some a := by
  rw [List.getElem?_set_ne (by norm_num), List.getElem?_set_ne (by norm_num),
    List.getElem?_set_self (by omega)]

lemma getElem?_set3_1 (l : List ℝ) (a b c : ℝ) (h : 3 ≤ l.length) :
    (((l.set 0 a).set 1 b).set 2 c)[1]? = some b := by
  rw [List.getElem?_set_ne (by norm_num),
    List.getElem?_set_self (by simp; omega)]

lemma getElem?_set3_2 (l : List ℝ) (a b c : ℝ) (h : 3 ≤ l.length) :
    (((l.set 0 a).set 1 b).set 2 c)[2]? = some c := by
  rw [List.getElem?_set_self (by simp; omega)]

lemma zsl_vec_cross_ok (v w c : zsl_vec) (hv : v.sz = 3) (hw : w.sz = 3)
    (hc : c.sz = 3) (hvl : 3 ≤ v.data.length) (hwl : 3 ≤ w.data.length)
    (hcl : 3 ≤ c.data.length) :
    zsl_vec_cross v w c = some (0, ⟨c.sz,
      ((c.data.set 0 (atD v.data 1 * atD w.data 2 - atD v.data 2 * atD w.data 1)).set 1
        (atD v.data 2 * atD w.data 0 - atD v.data 0 * atD w.data 2)).set 2
        (atD v.data 0 * atD w.data 1 - atD v.data 1 * atD w.data 0)⟩) := by
  have g0 : bufGet v.data 0 = some (atD v.data 0) := bufGet_eq (by omega)
  have g1 : bufGet v.data 1 = some (atD v.data 1) := bufGet_eq (by omega)
  have g2 : bufGet v.data 2 = some (atD v.data 2) := bufGet_eq (by omega)
  have k0 : bufGet w.data 0 = some (atD w.data 0) := bufGet_eq (by omega)
  have k1 : bufGet w.data 1 = some (atD w.data 1) := bufGet_eq (by omega)
  have k2 : bufGet w.data 2 = some (atD w.data 2) := bufGet_eq (by omega)
  have s0 := bufSet_eq (l := c.data) (i := 0) (by omega)
    (atD v.data 1 * atD w.data 2 - atD v.data 2 * atD w.data 1)
  have s1 := bufSet_eq
    (l := c.data.set 0 (atD v.data 1 * atD w.data 2 - atD v.data 2 * atD w.data 1))
    (i := 1) (by simp; omega)
    (atD v.data 2 * atD w.data 0 - atD v.data 0 * atD w.data 2)
  have s2 := bufSet_eq
    (l := (c.data.set 0 (atD v.data 1 * atD w.data 2 - atD v.data 2 * atD w.data 1)).set 1
      (atD v.data 2 * atD w.data 0 - atD v.data 0 * atD w.data 2))
    (i := 2) (by simp; omega)
    (atD v.data 0 * atD w.data 1 - atD v.data 1 * atD w.data 0)
  rw [zsl_vec_cross, if_neg (by omega)]
  simp [g0, g1, g2, k0, k1, k2, s0, s1, s2]

/-- Claim C5: for length-3 vectors the cross product succeeds and is
anti-commutative (`cross v w` is the element-wise negation of `cross w v`);
any call with a vector of length other than 3 is rejected with `-EINVAL`
without writing to the output. -/
theorem C5_cross :
    (∀ v w c : zsl_vec, v.sz = 3 → w.sz = 3 → c.sz = 3 →
      3 ≤ v.data.length → 3 ≤ w.data.length → 3 ≤ c.data.length →
      ∃ c1 c2, zsl_vec_cross v w c = some (0, c1) ∧
        zsl_vec_cross w v c = some (0, c2) ∧ c1.sz = 3 ∧ c2.sz = 3 ∧
        ∀ j, j < 3 → c1.data[j]? = some (-(atD c2.data j))) ∧
    (∀ v w c : zsl_vec, v.sz ≠ 3 ∨ w.sz ≠ 3 ∨ c.sz ≠ 3 →
      zsl_vec_cross v w c = some (-EINVAL, c)) := by
  constructor
  · intro v w c hv hw hc hvl hwl hcl
    refine ⟨_, _, zsl_vec_cross_ok v w c hv hw hc hvl hwl hcl,
      zsl_vec_cross_ok w v c hw hv hc hwl hvl hcl, hc, hc, ?_⟩
    intro j hj
    interval_cases j
    · rw [getElem?_set3_0 _ _ _ _ hcl,
        atD_of_getElem? (getElem?_set3_0 c.data _ _ _ hcl)]
      congr 1
      ring
    · rw [getElem?_set3_1 _ _ _ _ hcl,
        atD_of_getElem? (getElem?_set3_1 c.data _ _ _ hcl)]
      congr 1
      ring
    · rw [getElem?_set3_2 _ _ _ _ hcl,
        atD_of_getElem? (getElem?_set3_2 c.data _ _ _ hcl)]
      congr 1
      ring
  · intro v w c hbad
    rw [zsl_vec_cross, if_pos hbad]

/-- Concrete instantiation of the C5 theorem: the accepted case at
`[1,0,0] × [0,1,0]` and the rejected case for a length-2 first argument. -/
theorem C5_witness :
    (∃ c1 c2, zsl_vec_cross ⟨3, [1, 0, 0]⟩ ⟨3, [0, 1, 0]⟩ ⟨3, [0, 0, 0]⟩ =
        some (0, c1) ∧
      zsl_vec_cross ⟨3, [0, 1, 0]⟩ ⟨3, [1, 0, 0]⟩ ⟨3, [0, 0, 0]⟩ = some (0, c2) ∧
      c1.sz = 3 ∧ c2.sz = 3 ∧ ∀ j, j < 3 → c1.data[j]? = some (-(atD c2.data j))) ∧
    zsl_vec_cross ⟨2, [1, 0]⟩ ⟨3, [0, 1, 0]⟩ ⟨3, [0, 0, 0]⟩ =
      some (-EINVAL, ⟨3, [0, 0, 0]⟩) :=
  ⟨C5_cross.1 _ _ _ rfl rfl rfl (by simp) (by simp) (by simp),
    C5_cross.2 _ _ _ (by simp)⟩

/-- Claim C6: `zsl_vec_dist` yields the NaN sentinel (inner `none`) on a
length mismatch rather than an error code, and the Euclidean norm of the
element-wise difference when the lengths agree. -/
theorem C6_dist :
    (∀ v w : zsl_vec, v.sz ≠ w.sz → zsl_vec_dist v w = some none) ∧
    (∀ v w : zsl_vec, v.sz = w.sz → v.sz ≤ v.data.length →
      v.sz ≤ w.data.length →
      zsl_vec_dist v w = some (some (Real.sqrt (∑ i ∈ Finset.range v.sz,
        (atD v.data i - atD w.data i) * (atD v.data i - atD w.data i))))) := by
  constructor
  · intro v w hne
    rw [zsl_vec_dist, zsl_vec_sub, if_pos (Or.inl hne)]
    norm_num [EINVAL]
  · intro v w heq hv hw
    obtain ⟨dx, hdx, hlenx, hinx, houtx⟩ :=
      subLoop_spec v.data w.data (List.replicate v.sz 0) v.sz hv (heq ▸ hw)
        (by simp)
    have hsum : ∑ i ∈ Finset.range v.sz, atD dx i * atD dx i =
        ∑ i ∈ Finset.range v.sz,
          (atD v.data i - atD w.data i) * (atD v.data i - atD w.data i) :=
      Finset.sum_congr rfl fun i hi => by
        rw [atD_of_getElem? (hinx i (Finset.mem_range.mp hi))]
    have hlen2 : dx.length = v.sz := by simpa using hlenx
    rw [zsl_vec_dist, zsl_vec_sub, if_neg (by simp [heq]), hdx]
    have hdot := dotLoop_eq dx dx v.sz (by omega) (by omega)
    simp [zsl_vec_magn, zsl_vec_sum_of_sqrs, zsl_vec_dot, hdot, hsum]

/-- Concrete instantiation of the C6 theorem: mismatched lengths give the
NaN sentinel; `dist([3,4],[0,0]) = 5`-shaped success at equal lengths. -/
theorem C6_witness :
    zsl_vec_dist ⟨1, [1]⟩ ⟨2, [1, 2]⟩ = some none ∧
    zsl_vec_dist ⟨2, [3, 4]⟩ ⟨2, [0, 0]⟩ =
      some (some (Real.sqrt (∑ i ∈ Finset.range 2,
        (atD [3, 4] i - atD [0, 0] i) * (atD [3, 4] i - atD [0, 0] i)))) :=
  ⟨C6_dist.1 ⟨1, [1]⟩ ⟨2, [1, 2]⟩ (by simp),
    C6_dist.2 ⟨2, [3, 4]⟩ ⟨2, [0, 0]⟩ rfl (by simp) (by simp)⟩

lemma szLastRT_eq_of_lt (s : ℕ) (h : s < 2 ^ 31) : szLastRT s = s := by
  unfold szLastRT intOfSizeT sizeTOfInt Int.bmod
  have hmod : ((s : ℤ) % ((2 ^ 32 : ℕ) : ℤ)) = (s : ℤ) :=
    Int.emod_eq_of_lt (by positivity) (by exact_mod_cast by omega)
  rw [hmod, if_pos (by exact_mod_cast by omega)]
  rw [Int.emod_eq_of_lt (by positivity) (by exact_mod_cast by omega)]
  exact Int.toNat_natCast s

/-- Claim C9: `zsl_vec_sum` does not initialise its output: on success each
final output element is the output's prior element plus the element-wise sum
of the inputs, and the output's declared length is overwritten with the first
input's length regardless of its prior value (the statement places no
constraint on `w.sz`, so it may be raised above the caller's declared
length, as the witness shows).  The first input's length is bounded by
`2 ^ 31` so that the `int` narrowing of `sz_last` leaves it unchanged; above
that bound the narrowing wraps and the bounds-checked build rejects the
call. -/
theorem C9_sum (v0 : zsl_vec) (rest : List zsl_vec) (w : zsl_vec)
    (hbound : v0.sz < 2 ^ 31)
    (hsz : ∀ vi ∈ v0 :: rest, vi.sz = v0.sz)
    (hcaps : ∀ vi ∈ v0 :: rest, v0.sz ≤ vi.data.length)
    (hw : v0.sz ≤ w.data.length) :
    ∃ d, zsl_vec_sum (v0 :: rest) w = some (0, ⟨v0.sz, d⟩) ∧
      d.length = w.data.length ∧
      (∀ j, j < v0.sz → d[j]? = some (atD w.data j +
        (((v0 :: rest).map fun vi => atD vi.data j).sum))) ∧
      (∀ j, v0.sz ≤ j → d[j]? = w.data[j]?) := by
  have hRT : szLastRT v0.sz = v0.sz := szLastRT_eq_of_lt v0.sz hbound
  obtain ⟨d, hd, hlen, hin, hout⟩ := sumFold_spec (v0 :: rest) w.data v0.sz hcaps hw
  refine ⟨d, ?_, hlen, hin, hout⟩
  have hcond : ¬(((v0 :: rest).any fun vi => v0.sz ≠ vi.sz) = true) := by
    intro hbad
    rw [List.any_eq_true] at hbad
    obtain ⟨vi, hvi, hne⟩ := hbad
    simp only [decide_eq_true_eq] at hne
    exact hne (hsz vi hvi).symm
  simp only [zsl_vec_sum, hRT]
  rw [if_neg hcond, hd]
  rfl

/-- Concrete instantiation of the C9 theorem: the output declared length 0 is
raised to 1 and the prior buffer value 10 is accumulated into. -/
theorem C9_witness :
    ∃ d, zsl_vec_sum [⟨1, [2]⟩, ⟨1, [3]⟩] ⟨0, [10]⟩ = some (0, ⟨1, d⟩) ∧
      d.length = 1 ∧
      (∀ j, j < 1 → d[j]? = some (atD [10] j +
        ((([⟨1, [2]⟩, ⟨1, [3]⟩] : List zsl_vec).map fun vi => atD vi.data j).sum))) ∧
      (∀ j, 1 ≤ j → d[j]? = ([10] : List ℝ)[j]?) :=
  C9_sum ⟨1, [2]⟩ [⟨1, [3]⟩] ⟨0, [10]⟩ (by norm_num)
    (by
      intro vi hvi
      simp only [List.mem_cons, List.not_mem_nil, or_false] at hvi
      rcases hvi with rfl | rfl <;> rfl)
    (by
      intro vi hvi
      simp only [List.mem_cons, List.not_mem_nil, or_false] at hvi
      rcases hvi with rfl | rfl <;> simp)
    (by simp)

/-- Claim C10: `zsl_vec_rev` is safe exactly for non-empty vectors: for
`sz ≥ 1` every touched index is inside `[0, sz)` (elements beyond `sz` are
untouched) and element `i` of the result is old element `sz - 1 - i`; for
`sz = 0` the `size_t` end index wraps to `SIZE_MOD - 1` and the very first
iteration reads outside any realisable buffer, reaching the out-of-bounds
branch of the Option-indexed embedding. -/
theorem C10_rev :
    (∀ v : zsl_vec, 1 ≤ v.sz → v.sz < SIZE_MOD → v.sz ≤ v.data.length →
      ∃ d, zsl_vec_rev v = some (0, ⟨v.sz, d⟩) ∧ d.length = v.data.length ∧
        (∀ i, i < v.sz → d[i]? = v.data[v.sz - 1 - i]?) ∧
        (∀ i, v.sz ≤ i → d[i]? = v.data[i]?)) ∧
    zsl_vec_rev ⟨0, [0]⟩ = none := by
  constructor
  · intro v h1 h2 hcap
    have he : (v.sz + (SIZE_MOD - 1)) % SIZE_MOD = v.sz - 1 := by
      have hM : (0:ℕ) < SIZE_MOD := by norm_num [SIZE_MOD]
      have hsplit : v.sz + (SIZE_MOD - 1) = (v.sz - 1) + 1 * SIZE_MOD := by omega
      rw [hsplit, Nat.add_mul_mod_self_right, Nat.mod_eq_of_lt (by omega)]
    obtain ⟨d2, hd2, hlen, hkey⟩ := revLoop_spec v.data 0 (v.sz - 1) (by omega)
    refine ⟨d2, ?_, hlen, ?_, ?_⟩
    · rw [zsl_vec_rev, he, hd2]
      rfl
    · intro i hi
      rw [hkey i, if_pos (by omega)]
      have hidx : 0 + (v.sz - 1) - i = v.sz - 1 - i := by omega
      rw [hidx]
    · intro i hi
      rw [hkey i, if_neg (by omega)]
  · have hM : ((0:ℕ) + (SIZE_MOD - 1)) % SIZE_MOD = SIZE_MOD - 1 := by
      rw [Nat.zero_add, Nat.mod_eq_of_lt (by norm_num [SIZE_MOD])]
    have hloop : revLoop [(0:ℝ)] 0 (SIZE_MOD - 1) = none := by
      rw [revLoop, dif_pos (by norm_num [SIZE_MOD])]
      have hobb : bufGet [(0:ℝ)] (SIZE_MOD - 1) = none := by
        rw [bufGet, List.getElem?_eq_none (by norm_num [SIZE_MOD])]
      simp [hobb]
    rw [zsl_vec_rev]
    show (do
      let d ← revLoop [(0:ℝ)] 0 (((0:ℕ) + (SIZE_MOD - 1)) % SIZE_MOD)
      some ((0:Int), (⟨0, d⟩ : zsl_vec))) = none
    rw [hM, hloop]
    rfl

/-- Concrete instantiation of the safe half of the C10 theorem at `[5, 7]`. -/
theorem C10_witness :
    ∃ d, zsl_vec_rev ⟨2, [5, 7]⟩ = some (0, ⟨2, d⟩) ∧ d.length = 2 ∧
      (∀ i, i < 2 → d[i]? = ([5, 7] : List ℝ)[2 - 1 - i]?) ∧
      (∀ i, 2 ≤ i → d[i]? = ([5, 7] : List ℝ)[i]?) :=
  C10_rev.1 ⟨2, [5, 7]⟩ (by norm_num) (by norm_num [SIZE_MOD]) (by simp)

/-- Claim C2 counterexample: for the 5-element source with `offset = 0`,
`len = 10` (so `offset + len` exceeds the source length) and a destination of
declared length 2 (< the truncated count 5), the claim as stated predicts
success with 5 copied elements, but `zsl_vec_get_subset` rejects the call
with `-EINVAL` and copies nothing. -/
theorem C2_counterexample :
    zsl_vec_get_subset ⟨5, [1, 2, 3, 4, 5]⟩ 0 10 ⟨2, [0, 0]⟩ =
      some (-EINVAL, ⟨2, [0, 0]⟩) ∧ (-EINVAL : Int) ≠ 0 := by
  constructor
  · rw [zsl_vec_get_subset]
    norm_num [SIZE_MOD]
  · norm_num [EINVAL]

/-- Claim C2 (amended): with bounds checks enabled and no `size_t` overflow
in `offset + len`, an in-range offset with an over-long request is truncated
to `v.sz - offset` elements and succeeds provided the destination's declared
length is at least that count, clamping the destination length down to the
copied count (never up); when the destination's declared length is smaller
than the truncated count the call is instead rejected with `-EINVAL` and
copies nothing; an offset at or past `v.sz` is rejected with `-EINVAL` and
copies nothing. -/
theorem C2_get_subset :
    (∀ v : zsl_vec, ∀ offset len : ℕ, ∀ vsub : zsl_vec,
      offset < v.sz → v.sz < offset + len → offset + len < SIZE_MOD →
      v.sz - offset ≤ vsub.sz →
      v.sz ≤ v.data.length → vsub.sz ≤ vsub.data.length →
      ∃ d, zsl_vec_get_subset v offset len vsub = some (0, ⟨v.sz - offset, d⟩) ∧
        d.length = vsub.data.length ∧
        (∀ j, j < v.sz - offset → d[j]? = v.data[offset + j]?) ∧
        (∀ j, v.sz - offset ≤ j → d[j]? = vsub.data[j]?) ∧
        v.sz - offset ≤ vsub.sz) ∧
    (∀ v : zsl_vec, ∀ offset len : ℕ, ∀ vsub : zsl_vec,
      offset < v.sz → v.sz < offset + len → offset + len < SIZE_MOD →
      vsub.sz < v.sz - offset →
      zsl_vec_get_subset v offset len vsub = some (-EINVAL, vsub)) ∧
    (∀ v : zsl_vec, ∀ offset len : ℕ, ∀ vsub : zsl_vec,
      v.sz ≤ offset → zsl_vec_get_subset v offset len vsub = some (-EINVAL, vsub)) := by
  refine ⟨?_, ?_, ?_⟩
  · intro v offset len vsub h1 h2 h3 h4 hv hsubcap
    have hmod : (offset + len) % SIZE_MOD = offset + len := Nat.mod_eq_of_lt h3
    obtain ⟨d, hd, hlen, hin, hout⟩ :=
      memcpyFrom_spec vsub.data v.data offset (v.sz - offset) (by omega) (by omega)
    rw [zsl_vec_get_subset, if_neg (by omega), hmod,
      if_pos (show offset + len ≥ v.sz by omega),
      if_neg (show ¬vsub.sz < v.sz - offset by omega),
      show (if vsub.sz > v.sz - offset then v.sz - offset else vsub.sz) =
        v.sz - offset from by split <;> omega,
      hd]
    exact ⟨d, rfl, hlen, hin, hout, h4⟩
  · intro v offset len vsub h1 h2 h3 h4
    have hmod : (offset + len) % SIZE_MOD = offset + len := Nat.mod_eq_of_lt h3
    rw [zsl_vec_get_subset, if_neg (by omega), hmod,
      if_pos (show offset + len ≥ v.sz by omega),
      if_pos (show vsub.sz < v.sz - offset by omega)]
  · intro v offset len vsub h1
    rw [zsl_vec_get_subset, if_pos (by omega)]

/-- Concrete instantiation of the amended C2 theorem: truncated success at
`offset = 3`, `len = 10` on a 5-element source, and rejection at
`offset = 5`. -/
theorem C2_witness :
    (∃ d, zsl_vec_get_subset ⟨5, [1, 2, 3, 4, 5]⟩ 3 10 ⟨4, [9, 9, 9, 9]⟩ =
        some (0, ⟨2, d⟩) ∧ d.length = 4 ∧
      (∀ j, j < 2 → d[j]? = ([1, 2, 3, 4, 5] : List ℝ)[3 + j]?) ∧
      (∀ j, 2 ≤ j → d[j]? = ([9, 9, 9, 9] : List ℝ)[j]?) ∧ (2:ℕ) ≤ 4) ∧
    zsl_vec_get_subset ⟨5, [1, 2, 3, 4, 5]⟩ 5 1 ⟨4, [9, 9, 9, 9]⟩ =
      some (-EINVAL, ⟨4, [9, 9, 9, 9]⟩) :=
  ⟨C2_get_subset.1 ⟨5, [1, 2, 3, 4, 5]⟩ 3 10 ⟨4, [9, 9, 9, 9]⟩ (by norm_num)
      (by norm_num) (by norm_num [SIZE_MOD]) (by norm_num) (by simp) (by simp),
    C2_get_subset.2.2 ⟨5, [1, 2, 3, 4, 5]⟩ 5 1 ⟨4, [9, 9, 9, 9]⟩ (by norm_num)⟩

/-- Claim C3: for a non-empty vector with nonzero Euclidean norm,
`zsl_vec_to_unit` divides each element by the original norm in place, the
resulting norm is exactly 1 over the real-number embedding, and the call
returns 0; for a norm of exactly zero it instead produces the fallback unit
vector (element 0 set to 1.0, all other elements 0) and still returns 0. -/
theorem C3_to_unit (v : zsl_vec) (h1 : 1 ≤ v.sz) (hcap : v.sz ≤ v.data.length)
    (mag : ℝ) (hm : zsl_vec_norm v = some mag) :
    (mag ≠ 0 → ∃ v1, zsl_vec_to_unit v = some (0, v1) ∧ v1.sz = v.sz ∧
      v1.data.length = v.data.length ∧
      (∀ j, j < v.sz → v1.data[j]? = some (atD v.data j / mag)) ∧
      zsl_vec_norm v1 = some 1) ∧
    (mag = 0 → ∃ d, zsl_vec_to_unit v = some (0, ⟨v.sz, d⟩) ∧
      d.length = v.data.length ∧
      (∀ j, j < v.sz → d[j]? = some (if j = 0 then 1 else 0))) := by
  have hS := dotLoop_eq v.data v.data v.sz hcap hcap
  have hmag :
      Real.sqrt (∑ i ∈ Finset.range v.sz, atD v.data i * atD v.data i) = mag := by
    rw [zsl_vec_norm, hS] at hm
    simpa using hm
  have hSnn : (0:ℝ) ≤ ∑ i ∈ Finset.range v.sz, atD v.data i * atD v.data i :=
    Finset.sum_nonneg fun i _ => mul_self_nonneg _
  constructor
  · intro hne
    have hpos : 0 < mag := lt_of_le_of_ne (hmag ▸ Real.sqrt_nonneg _) (Ne.symm hne)
    obtain ⟨d, hd, hlen, hin, hout⟩ := multLoop_spec v.data (1 / mag) v.sz hcap
    refine ⟨⟨v.sz, d⟩, ?_, rfl, hlen, ?_, ?_⟩
    · rw [zsl_vec_to_unit, hm]
      simp only [Option.bind_eq_bind, Option.some_bind]
      rw [if_pos hne, zsl_vec_scalar_mult, hd]
      rfl
    · intro j hj
      rw [hin j hj, mul_one_div]
    · have hS2 := dotLoop_eq d d v.sz (by omega) (by omega)
      have hsum2 : ∑ i ∈ Finset.range v.sz, atD d i * atD d i =
          (∑ i ∈ Finset.range v.sz, atD v.data i * atD v.data i) *
            ((1 / mag) * (1 / mag)) := by
        rw [Finset.sum_mul]
        refine Finset.sum_congr rfl fun i hi => ?_
        rw [atD_of_getElem? (hin i (Finset.mem_range.mp hi))]
        ring
      rw [zsl_vec_norm]
      show (do
        let s ← dotLoop d d v.sz
        some (Real.sqrt s)) = some 1
      rw [hS2, hsum2]
      simp only [Option.bind_eq_bind, Option.some_bind, Option.some.injEq]
      rw [Real.sqrt_mul hSnn, Real.sqrt_mul_self (by positivity), hmag]
      exact mul_one_div_cancel hne
  · intro h0
    obtain ⟨d0, hd0, hlen0, hin0, hout0⟩ := memsetZero_spec v.data v.sz hcap
    have hset : bufSet d0 0 1 = some (d0.set 0 1) := bufSet_eq (by omega) 1
    refine ⟨d0.set 0 1, ?_, by simp [hlen0], ?_⟩
    · rw [zsl_vec_to_unit, hm]
      simp only [Option.bind_eq_bind, Option.some_bind]
      rw [if_neg (by simp [h0]), zsl_vec_init, hd0]
      simp only [Option.bind_eq_bind, Option.some_bind]
      rw [hset]
      rfl
    · intro j hj
      by_cases hj0 : j = 0
      · subst hj0
        rw [List.getElem?_set_self (by omega)]
        simp
      · rw [List.getElem?_set_ne (Ne.symm hj0), hin0 j hj, if_neg hj0]

/-- Concrete instantiation of the C3 theorem: `[3, 4]` has norm 5 and is
rescaled to a unit vector; `[0, 0]` has norm 0 and is replaced by the
fallback `[1, 0]`. -/
theorem C3_witness :
    (∃ v1, zsl_vec_to_unit ⟨2, [3, 4]⟩ = some (0, v1) ∧ v1.sz = 2 ∧
      v1.data.length = 2 ∧
      (∀ j, j < 2 → v1.data[j]? = some (atD [3, 4] j / 5)) ∧
      zsl_vec_norm v1 = some 1) ∧
    (∃ d, zsl_vec_to_unit ⟨2, [0, 0]⟩ = some (0, ⟨2, d⟩) ∧ d.length = 2 ∧
      (∀ j, j < 2 → d[j]? = some (if j = 0 then 1 else 0))) := by
  have hn1 : zsl_vec_norm ⟨2, [3, 4]⟩ = some 5 := by
    rw [zsl_vec_norm, dotLoop_eq [3, 4] [3, 4] 2 (by simp) (by simp)]
    simp only [Option.bind_eq_bind, Option.some_bind, Option.some.injEq]
    rw [show ∑ i ∈ Finset.range 2, atD [3, 4] i * atD [3, 4] i = 25 from by
      norm_num [Finset.sum_range_succ, atD]]
    rw [show (25:ℝ) = 5 * 5 by norm_num]
    exact Real.sqrt_mul_self (by norm_num)
  have hn0 : zsl_vec_norm ⟨2, [0, 0]⟩ = some 0 := by
    rw [zsl_vec_norm, dotLoop_eq [0, 0] [0, 0] 2 (by simp) (by simp)]
    simp only [Option.bind_eq_bind, Option.some_bind, Option.some.injEq]
    rw [show ∑ i ∈ Finset.range 2, atD [0, 0] i * atD [0, 0] i = 0 from by
      norm_num [Finset.sum_range_succ, atD]]
    exact Real.sqrt_zero
  exact ⟨(C3_to_unit ⟨2, [3, 4]⟩ (by norm_num) (by simp) 5 hn1).1 (by norm_num),
    (C3_to_unit ⟨2, [0, 0]⟩ (by norm_num) (by simp) 0 hn0).2 rfl⟩

/-- Claim C1 (code bug): evaluating `zsl_vec_mean` on the two length-1
vectors `[2]` and `[4]` with a zeroed output of matching length.  The code
sums to `[6]` and then calls `zsl_vec_scalar_mult(m, 1/n)` where `1/n` is
computed in `size_t` arithmetic: `1/2 = 0`, so the result is `[0]` with
return code 0, whereas the element-wise arithmetic mean is `[3] ≠ [0]`. -/
theorem C1_mean_bug :
    zsl_vec_mean [⟨1, [2]⟩, ⟨1, [4]⟩] ⟨1, [0]⟩ = some (0, ⟨1, [0]⟩) ∧
    ((2:ℝ) + 4) / 2 = 3 ∧ (3:ℝ) ≠ 0 := by
  refine ⟨?_, by norm_num, by norm_num⟩
  have hval : zsl_vec_mean [⟨1, [2]⟩, ⟨1, [4]⟩] ⟨1, [0]⟩ =
      some (0, ⟨1, [((0:ℝ) + 2 + 4) * ((1 / 2 : ℕ) : ℝ)]⟩) := rfl
  rw [hval]
  norm_num

/-- Claim C4 (spec-modelled): `zsl_mtx_inv` reports the singular-matrix
error exactly when the determinant is zero, leaving the output untouched in
that case; for a nonzero determinant it writes the adjugate divided by the
determinant, and multiplying the input by the produced inverse yields the
identity matrix. -/
theorem C4_mtx_inv {n : ℕ} (m mi : Matrix (Fin n) (Fin n) ℝ) :
    ((zsl_mtx_inv m mi).1 = -EINVAL ↔ m.det = 0) ∧
    (m.det = 0 → (zsl_mtx_inv m mi).2 = mi) ∧
    (m.det ≠ 0 → (zsl_mtx_inv m mi).2 = m.det⁻¹ • m.adjugate ∧
      m * (zsl_mtx_inv m mi).2 = 1) := by
  refine ⟨⟨?_, ?_⟩, ?_, ?_⟩
  · intro h
    by_contra hdet
    rw [zsl_mtx_inv, if_neg hdet] at h
    norm_num [EINVAL] at h
  · intro h
    rw [zsl_mtx_inv, if_pos h]
  · intro h
    rw [zsl_mtx_inv, if_pos h]
  · intro h
    rw [zsl_mtx_inv, if_neg h]
    refine ⟨rfl, ?_⟩
    show m * (m.det⁻¹ • m.adjugate) = 1
    rw [Matrix.mul_smul, Matrix.mul_adjugate, smul_smul, inv_mul_cancel₀ h,
      one_smul]

/-- Concrete instantiation of the C4 theorem at the spec's scenario
`[[2,0],[0,2]]`, whose determinant 4 is nonzero. -/
theorem C4_witness :
    (!![(2:ℝ), 0; 0, 2]).det ≠ 0 ∧
    (zsl_mtx_inv !![(2:ℝ), 0; 0, 2] 0).2 =
      (!![(2:ℝ), 0; 0, 2]).det⁻¹ • (!![(2:ℝ), 0; 0, 2]).adjugate ∧
    !![(2:ℝ), 0; 0, 2] * (zsl_mtx_inv !![(2:ℝ), 0; 0, 2] 0).2 = 1 := by
  have hdet : (!![(2:ℝ), 0; 0, 2]).det ≠ 0 := by
    rw [Matrix.det_fin_two_of]
    norm_num
  exact ⟨hdet, (C4_mtx_inv !![(2:ℝ), 0; 0, 2] 0).2.2 hdet⟩
